import Mathlib

/-!
Verification of the AliceVision texturing pipeline (`Texturing.cpp`).

We shallowly embed the texture-baking core into Lean:
* `Color` / `AccuColor` — the per-texel accumulator (sum of samples plus count);
  machine floats are modelled by exact rationals.
* `isPixelInTriangle` — the half-pixel-tolerance point-in-triangle classifier;
  the squared distance itself is computed by the external geogram routine
  `GEO::Geom::point_triangle_squared_distance`, so it enters as a parameter.
* `generateUVsCore` — the Basic-UV generation loop: chart traversal, the global
  vertex-deduplication cache, the per-chart UV cache, atlas triangle lists.
* the edge-padding pass of `generateTexture` — `colorIDs` buffer, the dilation
  scan with negated back-references and the in-place resolution loop.
* `loadFromMeshing` — the visibility/mesh size check.

The C++ buffers become functions `Nat → Int`; in-place writes become
`Function.update`; the C++ iteration order is kept via explicit `List.foldl`
over the same index sequences.
-/

namespace AVTex

/-- Embedding of `Point2d` (double components become exact rationals). -/
structure Point2d where
  x : ℚ
  y : ℚ
deriving DecidableEq

/-- Embedding of `Point3d`. -/
structure Point3d where
  x : ℚ
  y : ℚ
  z : ℚ
deriving DecidableEq

/-- Embedding of `Pixel` (integer coordinates). -/
structure Pixel where
  x : ℤ
  y : ℤ
deriving DecidableEq

/-- Embedding of `Color` (three float channels, modelled as rationals). -/
structure Color where
  r : ℚ
  g : ℚ
  b : ℚ
deriving DecidableEq

namespace Color

/-- Componentwise colour addition, as `Color::operator+`. -/
def add (a c : Color) : Color := ⟨a.r + c.r, a.g + c.g, a.b + c.b⟩

/-- Division of a colour by an integer count, as `colorSum / count`. -/
def divNat (c : Color) (n : ℕ) : Color := ⟨c.r / n, c.g / n, c.b / n⟩

/-- The value of a default-constructed `Color` (zero-initialised channels). -/
def zero : Color := ⟨0, 0, 0⟩

instance : Add Color := ⟨add⟩
instance : Zero Color := ⟨zero⟩

instance : AddCommMonoid Color where
  add_assoc a b c := by
    show add (add a b) c = add a (add b c)
    simp [add, add_assoc]
  zero_add a := by
    show add zero a = a
    cases a
    simp [add, zero]
  add_zero a := by
    show add a zero = a
    cases a
    simp [add, zero]
  add_comm a b := by
    show add a b = add b a
    simp [add, add_comm]
  nsmul := nsmulRec

end Color

/-- Embedding of `AccuColor`: running colour sum plus sample count. -/
structure AccuColor where
  colorSum : Color
  count : ℕ
deriving DecidableEq

namespace AccuColor

/-- Embedding of `AccuColor::add`: add the sample to the sum, bump the count. -/
def addSample (a : AccuColor) (c : Color) : AccuColor :=
  ⟨a.colorSum + c, a.count + 1⟩

/-- Embedding of `AccuColor::average`: `count > 0 ? colorSum / count : colorSum`. -/
def average (a : AccuColor) : Color :=
  if 0 < a.count then a.colorSum.divNat a.count else a.colorSum

end AccuColor

/-- Accumulating a whole list of samples into a default-constructed
accumulator, in list order, exactly as the rasterization loop does with
`perPixelColors[xyoffset] += sample`. -/
def accumList (l : List Color) : AccuColor :=
  l.foldl AccuColor.addSample ⟨0, 0⟩

/-- Embedding of `std::numeric_limits<double>::epsilon()`. -/
def machineEps : ℚ := 1 / 2 ^ 52

/-- The pixel centre `(pixel.x + 0.5, pixel.y + 0.5)` used by `isPixelInTriangle`. -/
def pixelCenter (pixel : Pixel) : Point2d :=
  ⟨(pixel.x : ℚ) + 1 / 2, (pixel.y : ℚ) + 1 / 2⟩

/-- Embedding of `isPixelInTriangle`.  The squared point-to-triangle distance
is computed by the external geogram routine
`GEO::Geom::point_triangle_squared_distance` (out of scope per the spec), so it
is a parameter `sqDist p V0 V1 V2`.  The classifier itself is the source's
threshold test `dist < 0.5 + std::numeric_limits<double>::epsilon()`. -/
def isPixelInTriangle (sqDist : Point2d → Point2d → Point2d → Point2d → ℚ)
    (t0 t1 t2 : Point2d) (pixel : Pixel) : Bool :=
  decide (sqDist (pixelCenter pixel) t0 t1 t2 < 1 / 2 + machineEps)

/-- Embedding of `Mesh`: points and triangles (triples of point indices). -/
structure Mesh where
  pts : List Point3d
  tris : List (ℕ × ℕ × ℕ)
deriving DecidableEq

/-- Error kinds raised by `Texturing::loadFromMeshing`. -/
inductive LoadErr where
  | loadFail : LoadErr
  | sizeMismatch : LoadErr
deriving DecidableEq

/-- Embedding of `Texturing::loadFromMeshing`.  File I/O is external, so the
function receives the result of the binary mesh load (`none` when
`loadFromBin` fails) and the loaded visibility array-of-arrays; it throws a
size-mismatch error when the visibility count differs from the point count,
and otherwise retains the pair as the pipeline state. -/
def loadFromMeshing (meshLoad : Option Mesh) (vis : List (List ℕ)) :
    Except LoadErr (Mesh × List (List ℕ)) :=
  match meshLoad with
  | none => .error .loadFail
  | some m =>
      if vis.length ≠ m.pts.length then .error .sizeMismatch
      else .ok (m, vis)

/-- Embedding of a `UVAtlas` chart: placement rectangle corners, the optional
reference camera (`-1` means none) and the triangles of the chart. -/
structure UVChart where
  targetLU : Pixel
  sourceLU : Pixel
  refCameraID : ℤ
  triangleIDs : List ℕ
deriving DecidableEq

/-- Inputs of `Texturing::generateUVs`: the loaded mesh, the per-point
visibilities, the external camera model (`mp.getPixelFor3DPoint` and
`mp.isPixelInImage`, both out of scope per the spec, hence parameters) and the
texture side. -/
structure UVCtx where
  mesh : Mesh
  visIn : List (List ℕ)
  proj : ℤ → Point3d → Point2d
  inImage : ℤ → Point2d → Bool
  side : ℕ

/-- Embedding of the per-corner UV computation of `generateUVs` (lines
165-183): project through the chart's reference camera when it has one; on an
in-bounds projection take `(pix + offset) / textureSide`, flip the vertical
component, and reset to the origin when a resulting component reaches
`textureSide`; otherwise keep the default-constructed origin. -/
def cornerUV (ctx : UVCtx) (chart : UVChart) (p : Point3d) : Point2d :=
  if chart.refCameraID ≠ -1 then
    let pix := ctx.proj chart.refCameraID p
    if ctx.inImage chart.refCameraID pix then
      let offx : ℤ := chart.targetLU.x - chart.sourceLU.x
      let offy : ℤ := chart.targetLU.y - chart.sourceLU.y
      let u : ℚ := (pix.x + (offx : ℚ)) / (ctx.side : ℚ)
      let v : ℚ := 1 - (pix.y + (offy : ℚ)) / (ctx.side : ℚ)
      if (ctx.side : ℚ) ≤ u ∨ (ctx.side : ℚ) ≤ v then ⟨0, 0⟩ else ⟨u, v⟩
    else ⟨0, 0⟩
  else ⟨0, 0⟩

/-- The UV value asserted by the original claim (and the spec's wording): an
in-bounds projection always stores the offset-shifted, normalised,
vertically-flipped position, with no further case. -/
def claimedUV (ctx : UVCtx) (chart : UVChart) (p : Point3d) : Point2d :=
  if chart.refCameraID ≠ -1 then
    let pix := ctx.proj chart.refCameraID p
    if ctx.inImage chart.refCameraID pix then
      let offx : ℤ := chart.targetLU.x - chart.sourceLU.x
      let offy : ℤ := chart.targetLU.y - chart.sourceLU.y
      ⟨(pix.x + (offx : ℚ)) / (ctx.side : ℚ),
       1 - (pix.y + (offy : ℚ)) / (ctx.side : ℚ)⟩
    else ⟨0, 0⟩
  else ⟨0, 0⟩

/-- The UV value asserted by the amended claim: as `claimedUV`, except that a
result whose horizontal or flipped vertical component reaches `textureSide` is
replaced by the origin. -/
def amendedUV (ctx : UVCtx) (chart : UVChart) (p : Point3d) : Point2d :=
  if chart.refCameraID ≠ -1 then
    let pix := ctx.proj chart.refCameraID p
    if ctx.inImage chart.refCameraID pix then
      let w := claimedUV ctx chart p
      if (ctx.side : ℚ) ≤ w.x ∨ (ctx.side : ℚ) ≤ w.y then ⟨0, 0⟩ else w
    else ⟨0, 0⟩
  else ⟨0, 0⟩

/-- The mutable state threaded through `generateUVs`: the new mesh points and
triangles, the remapped visibilities, the UV table and per-triangle UV index
triples, the global vertex-deduplication cache and the output-triangle
counter. -/
structure UState where
  pts : List Point3d
  vis : List (List ℕ)
  tris : List (ℕ × ℕ × ℕ)
  uvIds : List (ℕ × ℕ × ℕ)
  uvs : List Point2d
  vc : List (ℕ × ℕ)
  cnt : ℕ

/-- The empty state at entry of `generateUVs` (fresh output mesh, fresh
caches, `triangleCount = 0`). -/
def emptyU : UState := ⟨[], [], [], [], [], [], 0⟩

/-- Embedding of the per-corner body of `generateUVs` (lines 165-216): compute
the corner's UV, look the original point up in the global vertex cache
(allocating a new mesh vertex and copying its visibilities on a miss), then
look the new vertex up in the per-chart UV cache (allocating a new UV table
entry on a miss).  Returns the new state, the new UV cache, the new vertex
index and the UV index. -/
def processCorner (ctx : UVCtx) (chart : UVChart) (st : UState)
    (uc : List (ℕ × ℕ)) (pointId : ℕ) : UState × List (ℕ × ℕ) × ℕ × ℕ :=
  let p := ctx.mesh.pts.getD pointId ⟨0, 0, 0⟩
  let uvPix := cornerUV ctx chart p
  let r1 : UState × ℕ :=
    match st.vc.lookup pointId with
    | some i => (st, i)
    | none =>
        let vIdx := st.pts.length
        ({ st with
            pts := st.pts ++ [p]
            vis := st.vis ++ [ctx.visIn.getD pointId []]
            vc := st.vc ++ [(pointId, vIdx)] }, vIdx)
  let st1 := r1.1
  let vIdx := r1.2
  match uc.lookup vIdx with
  | some j => (st1, uc, vIdx, j)
  | none =>
      let uvIdx := st1.uvs.length
      ({ st1 with uvs := st1.uvs ++ [uvPix] }, uc ++ [(vIdx, uvIdx)], vIdx, uvIdx)

/-- The state-and-UV-cache effect of one triangle of a chart: process the three
corners in order, then append the new mesh triangle and its UV index triple and
bump `triangleCount`. -/
def triCore (ctx : UVCtx) (chart : UVChart) (s : UState × List (ℕ × ℕ))
    (tid : ℕ) : UState × List (ℕ × ℕ) :=
  let tri := ctx.mesh.tris.getD tid (0, 0, 0)
  let c0 := processCorner ctx chart s.1 s.2 tri.1
  let c1 := processCorner ctx chart c0.1 c0.2.1 tri.2.1
  let c2 := processCorner ctx chart c1.1 c1.2.1 tri.2.2
  let st3 := c2.1
  ({ st3 with
      tris := st3.tris ++ [(c0.2.2.1, c1.2.2.1, c2.2.2.1)]
      uvIds := st3.uvIds ++ [(c0.2.2.2, c1.2.2.2, c2.2.2.2)]
      cnt := st3.cnt + 1 }, c2.2.1)

/-- Embedding of the triangle loop body (lines 156-221): register the current
`triangleCount` in the current atlas list, then run the corner processing. -/
def processTriangle (ctx : UVCtx) (chart : UVChart)
    (s : UState × List (ℕ × ℕ) × List ℕ) (tid : ℕ) :
    UState × List (ℕ × ℕ) × List ℕ :=
  let cur := s.2.2 ++ [s.1.cnt]
  let r := triCore ctx chart (s.1, s.2.1) tid
  (r.1, r.2, cur)

/-- Embedding of the chart loop body: a fresh UV cache, then all the chart's
triangles; the atlas list accumulates across the charts of the atlas. -/
def chartStep (ctx : UVCtx) (s : UState × List ℕ) (chart : UVChart) :
    UState × List ℕ :=
  let r := chart.triangleIDs.foldl (processTriangle ctx chart) (s.1, [], s.2)
  (r.1, r.2.2)

/-- The `UState` effect of one chart, without the atlas list. -/
def chartU (ctx : UVCtx) (st : UState) (chart : UVChart) : UState :=
  (chart.triangleIDs.foldl (triCore ctx chart) (st, [])).1

/-- Embedding of the atlas loop body: process the atlas' charts with a fresh
atlas triangle list, then append that list (`_atlases[atlasId]`). -/
def atlasStep (ctx : UVCtx) (s : UState × List (List ℕ)) (charts : List UVChart) :
    UState × List (List ℕ) :=
  let r := charts.foldl (chartStep ctx) (s.1, [])
  (r.1, s.2 ++ [r.2])

/-- Embedding of the whole `generateUVs` traversal (lines 143-224), starting
from the fresh state: returns the final state together with the atlas triangle
lists `_atlases`. -/
def generateUVsCore (ctx : UVCtx) (atlases : List (List UVChart)) :
    UState × List (List ℕ) :=
  atlases.foldl (atlasStep ctx) (emptyU, [])

/-- The `UState` reached after the first `n` charts (in traversal order,
atlases concatenated) of a `generateUVs` run. -/
def stateAfterCharts (ctx : UVCtx) (charts : List UVChart) (n : ℕ) : UState :=
  (charts.take n).foldl (chartU ctx) emptyU

/-- The UV indices recorded for the corners processed during chart `n` of a
`generateUVs` run: the components of the UV index triples pushed while that
chart ran. -/
def chartUvIdxs (ctx : UVCtx) (charts : List UVChart) (n : ℕ) : List ℕ :=
  ((stateAfterCharts ctx charts (n + 1)).uvIds.drop
      (stateAfterCharts ctx charts n).uvIds.length).flatMap
    (fun t => [t.1, t.2.1, t.2.2])

/-- Bounds on one UV index triple: every component lies in `[lo, hi)`. -/
def uvBounds (lo hi : ℕ) (t : ℕ × ℕ × ℕ) : Prop :=
  (lo ≤ t.1 ∧ t.1 < hi) ∧ (lo ≤ t.2.1 ∧ t.2.1 < hi) ∧ (lo ≤ t.2.2 ∧ t.2.2 < hi)

/-- Embedding of the guarded entry of `Texturing::generateUVs`.  The
absent-mesh check is line 122 of the source.  The empty-mesh failure lives in
the `UVAtlas` constructor, which is not under `src/`; that part is
modelled from the spec: the Atlas Builder "throws/reports an error if the mesh
is absent or empty".  `atlasesOf` stands for the packing computed by the
external `UVAtlas`. -/
def generateUVsChecked (meOpt : Option Mesh) (visIn : List (List ℕ))
    (proj : ℤ → Point3d → Point2d) (inImage : ℤ → Point2d → Bool) (side : ℕ)
    (atlasesOf : Mesh → List (List UVChart)) :
    Except String (UState × List (List ℕ)) :=
  match meOpt with
  | none => .error "Can not generate UVs without a mesh"
  | some me =>
      if me.pts = [] ∨ me.tris = [] then
        .error "UVAtlas requires a non-empty mesh"
      else
        .ok (generateUVsCore ⟨me, visIn, proj, inImage, side⟩ (atlasesOf me))

/-- The initial `colorIDs` buffer of `generateTexture`: `-1` everywhere, then
`colorIDs[xyoffset] = xyoffset` for every texel that accumulated a sample. -/
def mkColorIDs (sampled : ℕ → Bool) : ℕ → ℤ :=
  fun p => if sampled p then (p : ℤ) else -1

/-- One texel visit of the edge-padding dilation scan (lines 396-415): a texel
already holding a valid id is skipped; otherwise the first neighbour, in the
order left, right, next row, previous row, holding a valid id is recorded as a
negated back-reference. -/
def padStep (side : ℕ) (c : ℕ → ℤ) (p : ℕ) : ℕ → ℤ :=
  if 0 < c p then c
  else if 0 < c (p - 1) then Function.update c p (-((p : ℤ) - 1))
  else if 0 < c (p + 1) then Function.update c p (-((p : ℤ) + 1))
  else if 0 < c (p + side) then Function.update c p (-((p : ℤ) + (side : ℤ)))
  else if 0 < c (p - side) then Function.update c p (-((p : ℤ) - (side : ℤ)))
  else c

/-- The interior texel offsets in the scan order of the dilation loops:
`y` from `1` to `textureSide - 2`, then `x` from `1` to `textureSide - 2`. -/
def scanOrder (side : ℕ) : List ℕ :=
  (List.range' 1 (side - 2)).flatMap
    (fun y => (List.range' 1 (side - 2)).map (fun x => y * side + x))

/-- One full dilation scan over the interior texels. -/
def padScan (side : ℕ) (c : ℕ → ℤ) : ℕ → ℤ :=
  (scanOrder side).foldl (padStep side) c

/-- One texel visit of the back-reference resolution loop (lines 417-421):
a negative entry is replaced, in place, by the entry at the negated index. -/
def resolveStep (c : ℕ → ℤ) (i : ℕ) : ℕ → ℤ :=
  if c i < 0 then Function.update c i (c ((c i).natAbs)) else c

/-- The in-place resolution pass over the whole buffer. -/
def padResolve (side : ℕ) (c : ℕ → ℤ) : ℕ → ℤ :=
  (List.range (side * side)).foldl resolveStep c

/-- One edge-padding round: a dilation scan followed by the resolution pass. -/
def padRound (side : ℕ) (c : ℕ → ℤ) : ℕ → ℤ :=
  padResolve side (padScan side c)

/-- The whole edge-padding pass: `padding` rounds. -/
def edgePadding (side padding : ℕ) (c : ℕ → ℤ) : ℕ → ℤ :=
  (padRound side)^[padding] c

/-- A buffer offset lying in the interior scanned by the dilation loops:
both coordinates in `[1, textureSide - 2]`. -/
def isInterior (side p : ℕ) : Prop :=
  1 ≤ p % side ∧ p % side ≤ side - 2 ∧ 1 ≤ p / side ∧ p / side ≤ side - 2

/-- A buffer offset on the outermost one-texel border of the atlas. -/
def isBorder (side p : ℕ) : Prop :=
  p < side * side ∧
    (p % side = 0 ∨ p % side = side - 1 ∨ p / side = 0 ∨ p / side = side - 1)

/-- Reachability of a texel from an initially-valid texel in at most `n`
4-neighbour steps whose endpoints (other than the source) are interior:
the region the dilation provably fills after `n` rounds. -/
inductive InteriorReach (side : ℕ) (c : ℕ → ℤ) : ℕ → ℕ → Prop where
  | base (n p : ℕ) : 0 < c p → InteriorReach side c n p
  | step (n p q : ℕ) : InteriorReach side c n q → p ∈ scanOrder side →
      (q = p - 1 ∨ q = p + 1 ∨ q = p + side ∨ q = p - side) →
      InteriorReach side c (n + 1) p

/-- Whether a texel accumulated at least one sample. -/
def sampledOf (samples : ℕ → List Color) (p : ℕ) : Bool :=
  !(samples p).isEmpty

/-- The `colorIDs` buffer at the end of `generateTexture`'s repair phase:
edge padding runs exactly when hole-filling is disabled and `padding > 0`. -/
def texColorIDs (side padding : ℕ) (fillHoles : Bool)
    (samples : ℕ → List Color) : ℕ → ℤ :=
  if fillHoles = false ∧ 0 < padding then
    edgePadding side padding (mkColorIDs (sampledOf samples))
  else
    mkColorIDs (sampledOf samples)

/-- The colour of a texel that never resolved to any accumulator: the
default-constructed `Color`. -/
def defaultColor : Color := Color.zero

/-- Embedding of the final colour write (lines 433-449): a non-negative
`colorID` reads the average of the referenced accumulator, everything else
stays at the default colour.  `samples p` is the list of colours accumulated
into texel `p` during rasterization. -/
def textureBuffer (side padding : ℕ) (fillHoles : Bool)
    (samples : ℕ → List Color) (p : ℕ) : Color :=
  let c := texColorIDs side padding fillHoles samples
  if 0 ≤ c p then (accumList (samples ((c p).toNat))).average else defaultColor

/-- Concrete sample pattern with a sample only at buffer offset 1 (the border
texel `(1,0)` of a 3×3 atlas). -/
def cexSampledOne : ℕ → Bool := fun p => p == 1

/-- Concrete sample pattern with a sample only at buffer offset 4 (the single
interior texel `(1,1)` of a 3×3 atlas). -/
def cexSampledFour : ℕ → Bool := fun p => p == 4

/-- Concrete per-texel samples for the C2 counterexample: one red sample at
offset 1 of a 3×3 atlas. -/
def cexSamples : ℕ → List Color := fun p => if p = 1 then [⟨1, 0, 0⟩] else []

/-- Trivial mesh with one point and one triangle, for concrete runs of the UV
generation. -/
def cexMesh : Mesh := ⟨[⟨0, 0, 0⟩], [(0, 0, 0)]⟩

/-- Concrete context for runs of the UV generation whose charts carry no
reference camera. -/
def cexUVCtx : UVCtx := ⟨cexMesh, [[0]], fun _ _ => ⟨0, 0⟩, fun _ _ => false, 4⟩

/-- Two cameraless single-triangle charts in one atlas, both referencing
point 0 of `cexMesh`. -/
def cexAtlases : List (List UVChart) :=
  [[⟨⟨0, 0⟩, ⟨0, 0⟩, -1, [0]⟩, ⟨⟨1, 1⟩, ⟨0, 0⟩, -1, [0]⟩]]

/-- Concrete chart for the C5 counterexample: reference camera 0 and a
placement offset of 100 texels. -/
def cexChart : UVChart := ⟨⟨100, 0⟩, ⟨0, 0⟩, 0, []⟩

/-- Concrete context for the C5 counterexample: every projection lands at the
origin and is declared in-bounds; `textureSide = 2`. -/
def cexCtx : UVCtx :=
  ⟨⟨[], []⟩, [], fun _ _ => ⟨0, 0⟩, fun _ _ => true, 2⟩

/-! ### Theorems: the accumulator -/

theorem accumList_go (l : List Color) (a : AccuColor) :
    l.foldl AccuColor.addSample a = ⟨a.colorSum + l.sum, a.count + l.length⟩ := by
  induction l generalizing a with
  | nil => simp
  | cons c t ih =>
      simp only [List.foldl_cons, ih, AccuColor.addSample, List.sum_cons, List.length_cons]
      exact congrArg₂ AccuColor.mk
        (by rw [add_assoc, add_comm c t.sum, ← add_assoc]) (by omega)

/-- The accumulator state after a list of samples is the componentwise sum
together with the number of samples. -/
theorem accumList_eq (l : List Color) : accumList l = ⟨l.sum, l.length⟩ := by
  simpa [accumList] using accumList_go l ⟨0, 0⟩

/-- Reading a non-empty accumulator yields the mean of the samples. -/
theorem accumList_average (l : List Color) (h : l ≠ []) :
    (accumList l).average = Color.divNat l.sum l.length := by
  rw [accumList_eq]
  have hl : 0 < l.length := List.length_pos.mpr h
  simp [AccuColor.average, hl]

/-- Claim C3: per-texel accumulation (add sample to sum, increment count) is
commutative and associative over exact arithmetic, so any permutation of the
sample sequence reaching a texel yields the same final average colour —
camera/triangle processing order cannot affect the result. -/
theorem claimC3_accumulation_perm (l l' : List Color) (h : l.Perm l') :
    (accumList l).average = (accumList l').average := by
  rw [accumList_eq, accumList_eq, h.sum_eq, h.length_eq]

/-- Witness for C3 at a concrete pair of swapped samples. -/
theorem claimC3_accumulation_perm_witness :
    (accumList [Color.mk 1 2 3, Color.mk 4 5 6]).average
      = (accumList [Color.mk 4 5 6, Color.mk 1 2 3]).average :=
  claimC3_accumulation_perm _ _ (List.Perm.swap _ _ _)

/-! ### Theorems: the point-in-triangle classifier -/

/-- Claim C4: `isPixelInTriangle` classifies the pixel as inside exactly when
the squared distance from the pixel centre to the triangle is below
`0.5 + machine epsilon`; in particular a pixel centre exactly on a triangle
edge (distance zero) is classified inside, and any squared distance below the
half-pixel tolerance is accepted. -/
theorem claimC4_pixel_in_triangle
    (sqDist : Point2d → Point2d → Point2d → Point2d → ℚ)
    (t0 t1 t2 : Point2d) (pixel : Pixel) :
    (isPixelInTriangle sqDist t0 t1 t2 pixel = true ↔
        sqDist (pixelCenter pixel) t0 t1 t2 < 1 / 2 + machineEps) ∧
    (sqDist (pixelCenter pixel) t0 t1 t2 = 0 →
        isPixelInTriangle sqDist t0 t1 t2 pixel = true) ∧
    (sqDist (pixelCenter pixel) t0 t1 t2 < 1 / 2 →
        isPixelInTriangle sqDist t0 t1 t2 pixel = true) := by
  refine ⟨decide_eq_true_iff, ?_, ?_⟩
  · intro h
    rw [isPixelInTriangle, h, decide_eq_true_iff]
    norm_num [machineEps]
  · intro h
    rw [isPixelInTriangle, decide_eq_true_iff]
    have : (0 : ℚ) < machineEps := by norm_num [machineEps]
    linarith

/-- Witness for C4: a zero squared distance is classified inside. -/
theorem claimC4_pixel_in_triangle_witness :
    isPixelInTriangle (fun _ _ _ _ => 0) ⟨0, 0⟩ ⟨1, 0⟩ ⟨0, 1⟩ ⟨0, 0⟩ = true :=
  (claimC4_pixel_in_triangle (fun _ _ _ _ => 0) ⟨0, 0⟩ ⟨1, 0⟩ ⟨0, 1⟩ ⟨0, 0⟩).2.1 rfl

/-! ### Theorems: loading the mesh and its visibilities -/

/-- Claim C9: `loadFromMeshing` throws the size-mismatch error exactly when
the loaded visibility array-of-arrays and the loaded mesh point list have
different lengths; when the counts agree the mesh/visibility pair is retained
as the pipeline state (a failed mesh load raises the load error instead). -/
theorem claimC9_load_size_mismatch (m : Mesh) (vis : List (List ℕ)) :
    (loadFromMeshing (some m) vis = .error .sizeMismatch ↔
        vis.length ≠ m.pts.length) ∧
    (vis.length = m.pts.length → loadFromMeshing (some m) vis = .ok (m, vis)) ∧
    loadFromMeshing none vis = .error .loadFail := by
  by_cases h : vis.length = m.pts.length <;>
    simp [loadFromMeshing, h]

/-- Witness for C9 at concrete loads: a one-point mesh with empty visibilities
mismatches; with a single visibility entry it is retained. -/
theorem claimC9_load_size_mismatch_witness :
    loadFromMeshing (some cexMesh) [] = .error .sizeMismatch ∧
    loadFromMeshing (some cexMesh) [[0]] = .ok (cexMesh, [[0]]) := by
  constructor
  · exact (claimC9_load_size_mismatch cexMesh []).1.mpr (by decide)
  · exact (claimC9_load_size_mismatch cexMesh [[0]]).2.1 (by decide)

/-! ### Theorems: the guarded entry of generateUVs -/

/-- Claim C8: generating UVs fails exactly when the mesh is absent (source
line 122) or empty (spec-modelled `UVAtlas` failure); on failure an error is
returned instead of any atlas/UV data. -/
theorem claimC8_generateUVs_guard (meOpt : Option Mesh) (visIn : List (List ℕ))
    (proj : ℤ → Point3d → Point2d) (inImage : ℤ → Point2d → Bool) (side : ℕ)
    (atlasesOf : Mesh → List (List UVChart)) :
    (∃ e, generateUVsChecked meOpt visIn proj inImage side atlasesOf = .error e) ↔
      meOpt = none ∨ ∃ m, meOpt = some m ∧ (m.pts = [] ∨ m.tris = []) := by
  cases meOpt with
  | none => simp [generateUVsChecked]
  | some m =>
      by_cases h : m.pts = [] ∨ m.tris = [] <;>
        simp [generateUVsChecked, h]

/-- Witness for C8: the absent-mesh call errors out. -/
theorem claimC8_generateUVs_guard_witness :
    ∃ e, generateUVsChecked none [] (fun _ _ => ⟨0, 0⟩) (fun _ _ => false) 4
        (fun _ => []) = .error e :=
  (claimC8_generateUVs_guard none [] (fun _ _ => ⟨0, 0⟩) (fun _ _ => false) 4
    (fun _ => [])).mpr (Or.inl rfl)

/-! ### Theorems: the per-corner UV formula -/

/-- Counterexample for C5 as stated: with reference camera 0, a projection at
the origin declared in-bounds, `textureSide = 2` and a placement offset of
100 texels, the stored UV is the origin while the claimed offset-shifted,
normalised, flipped value is `(50, 1)`. -/
theorem claimC5_cex :
    cexChart.refCameraID ≠ -1 ∧
    cexCtx.inImage cexChart.refCameraID
        (cexCtx.proj cexChart.refCameraID ⟨0, 0, 0⟩) = true ∧
    cornerUV cexCtx cexChart ⟨0, 0, 0⟩ = ⟨0, 0⟩ ∧
    claimedUV cexCtx cexChart ⟨0, 0, 0⟩ = ⟨50, 1⟩ ∧
    (⟨0, 0⟩ : Point2d) ≠ ⟨50, 1⟩ := by
  refine ⟨by decide, rfl, ?_, ?_, by simp⟩
  · norm_num [cornerUV, cexCtx, cexChart]
  · norm_num [claimedUV, cexCtx, cexChart]

/-- Claim C5 (amended): for every corner, when the chart has a reference
camera and the projection is in-bounds the stored UV is the offset-shifted
position normalised by `textureSide` with the vertical component flipped —
unless a resulting component reaches `textureSide`, in which case (and in
every other case: no reference camera, or out-of-bounds projection) the UV is
the origin. -/
theorem claimC5_corner_uv_amended (ctx : UVCtx) (chart : UVChart) (p : Point3d) :
    cornerUV ctx chart p = amendedUV ctx chart p := by
  unfold cornerUV amendedUV claimedUV
  by_cases h1 : chart.refCameraID ≠ -1 <;>
    by_cases h2 : ctx.inImage chart.refCameraID (ctx.proj chart.refCameraID p) = true <;>
      simp [h1, h2]

/-! ### Theorems: the edge-padding pass — scan order -/

theorem scanOrder_mem {side p : ℕ} :
    p ∈ scanOrder side ↔
      ∃ y x, 1 ≤ y ∧ y < side - 1 ∧ 1 ≤ x ∧ x < side - 1 ∧ p = y * side + x := by
  simp only [scanOrder, List.mem_flatMap, List.mem_map, List.mem_range'_1]
  constructor
  · rintro ⟨y, ⟨hy1, hy2⟩, x, ⟨hx1, hx2⟩, rfl⟩
    exact ⟨y, x, hy1, by omega, hx1, by omega, rfl⟩
  · rintro ⟨y, x, hy1, hy2, hx1, hx2, rfl⟩
    exact ⟨y, ⟨hy1, by omega⟩, x, ⟨hx1, by omega⟩, rfl⟩

theorem scanOrder_bounds {side p : ℕ} (h : p ∈ scanOrder side) :
    3 ≤ side ∧ side + 1 ≤ p ∧ p + side < side * side := by
  obtain ⟨y, x, hy1, hy2, hx1, hx2, rfl⟩ := scanOrder_mem.mp h
  have hs : 3 ≤ side := by omega
  have ha : 1 * side ≤ y * side := Nat.mul_le_mul_right side hy1
  have hb : y * side ≤ (side - 2) * side := Nat.mul_le_mul_right side (by omega)
  have hc : (side - 2) * side = side * side - 2 * side := by rw [Nat.sub_mul]
  have hd : 2 * side ≤ side * side := Nat.mul_le_mul_right side (by omega)
  omega

theorem border_not_mem_scanOrder {side p : ℕ} (hb : isBorder side p) :
    p ∉ scanOrder side := by
  intro hm
  obtain ⟨y, x, hy1, hy2, hx1, hx2, rfl⟩ := scanOrder_mem.mp hm
  have hxlt : x < side := by omega
  have hmod : (y * side + x) % side = x := by
    rw [Nat.add_comm, Nat.add_mul_mod_self_right, Nat.mod_eq_of_lt hxlt]
  have hdiv : (y * side + x) / side = y := by
    rw [Nat.add_comm, Nat.add_mul_div_right _ _ (by omega : 0 < side),
      Nat.div_eq_of_lt hxlt]
    omega
  rcases hb.2 with h | h | h | h <;> rw [hmod, hdiv] at * <;> omega

/-! ### Theorems: the edge-padding pass — one scan visit -/

theorem padStep_ne {side : ℕ} {c : ℕ → ℤ} {a q : ℕ} (h : q ≠ a) :
    padStep side c a q = c q := by
  unfold padStep
  split_ifs <;> simp [Function.update_noteq h]

theorem padStep_pos_fixed {side : ℕ} {c : ℕ → ℤ} {a q : ℕ} (h : 0 < c q) :
    padStep side c a q = c q := by
  rcases eq_or_ne q a with rfl | hne
  · unfold padStep
    rw [if_pos h]
  · exact padStep_ne hne

theorem padStep_cases {side : ℕ} {c : ℕ → ℤ} {a : ℕ} (ha : side + 1 ≤ a) (q : ℕ) :
    padStep side c a q = c q ∨
      (q = a ∧ ∃ r : ℕ, padStep side c a a = -(r : ℤ) ∧ 0 < c r ∧
        (r = a - 1 ∨ r = a + 1 ∨ r = a + side ∨ r = a - side)) := by
  rcases eq_or_ne q a with heq | hne
  · subst heq
    unfold padStep
    split_ifs with h1 h2 h3 h4 h5
    · left; rfl
    · right
      exact ⟨rfl, q - 1, by rw [Function.update_same]; omega, h2, Or.inl rfl⟩
    · right
      exact ⟨rfl, q + 1, by rw [Function.update_same]; omega, h3, Or.inr (Or.inl rfl)⟩
    · right
      exact ⟨rfl, q + side, by rw [Function.update_same]; omega, h4,
        Or.inr (Or.inr (Or.inl rfl))⟩
    · right
      exact ⟨rfl, q - side, by rw [Function.update_same]; omega, h5,
        Or.inr (Or.inr (Or.inr rfl))⟩
    · left; rfl
  · left; exact padStep_ne hne

theorem padStep_assigned {side : ℕ} {c : ℕ → ℤ} {a p : ℕ} (ha : side + 1 ≤ a)
    (hs : 3 ≤ side) (h : c p < 0 ∧ 0 < c ((c p).natAbs)) :
    padStep side c a p < 0 ∧ 0 < padStep side c a ((padStep side c a p).natAbs) := by
  rcases padStep_cases (c := c) ha p with hq | ⟨rfl, r, hval, hr, hrc⟩
  · rw [hq]
    exact ⟨h.1, by rw [padStep_pos_fixed h.2]; exact h.2⟩
  · rw [hval]
    have hrpos : 0 < r := by rcases hrc with rfl | rfl | rfl | rfl <;> omega
    have habs : ((-(r : ℤ)).natAbs) = r := by
      rw [Int.natAbs_neg, Int.natAbs_ofNat]
    refine ⟨by omega, ?_⟩
    rw [habs, padStep_pos_fixed hr]
    exact hr

theorem padStep_nonpos {side : ℕ} {c : ℕ → ℤ} {a p : ℕ} (ha : side + 1 ≤ a)
    (hs : 3 ≤ side) (h : c p ≤ 0) : padStep side c a p ≤ 0 := by
  rcases padStep_cases (c := c) ha p with hq | ⟨rfl, r, hval, hr, hrc⟩
  · rw [hq]; exact h
  · rw [hval]
    have hrpos : 0 < r := by rcases hrc with rfl | rfl | rfl | rfl <;> omega
    omega

/-! ### Theorems: the edge-padding pass — the whole scan -/

theorem foldPad_not_mem {side : ℕ} {l : List ℕ} {c : ℕ → ℤ} {p : ℕ} (h : p ∉ l) :
    (l.foldl (padStep side) c) p = c p := by
  induction l generalizing c with
  | nil => rfl
  | cons a t ih =>
      rw [List.foldl_cons, ih (fun hm => h (List.mem_cons_of_mem a hm)),
        padStep_ne (fun he => h (by rw [he]; exact List.mem_cons_self a t))]

theorem foldPad_pos_fixed {side : ℕ} {l : List ℕ} {c : ℕ → ℤ} {q : ℕ}
    (h : 0 < c q) : (l.foldl (padStep side) c) q = c q := by
  induction l generalizing c with
  | nil => rfl
  | cons _a t ih =>
      rw [List.foldl_cons, ih (by rw [padStep_pos_fixed h]; exact h),
        padStep_pos_fixed h]

theorem foldPad_nonpos {side : ℕ} {l : List ℕ} (hl : ∀ a ∈ l, side + 1 ≤ a)
    (hs : 3 ≤ side) {c : ℕ → ℤ} {p : ℕ} (h : c p ≤ 0) :
    (l.foldl (padStep side) c) p ≤ 0 := by
  induction l generalizing c with
  | nil => exact h
  | cons a t ih =>
      rw [List.foldl_cons]
      exact ih (fun b hb => hl b (List.mem_cons_of_mem a hb))
        (padStep_nonpos (hl a (List.mem_cons_self a t)) hs h)

theorem foldPad_assigned {side : ℕ} {l : List ℕ} (hl : ∀ a ∈ l, side + 1 ≤ a)
    (hs : 3 ≤ side) {c : ℕ → ℤ} {p : ℕ} (h : c p < 0 ∧ 0 < c ((c p).natAbs)) :
    (l.foldl (padStep side) c) p < 0 ∧
      0 < (l.foldl (padStep side) c) (((l.foldl (padStep side) c) p).natAbs) := by
  induction l generalizing c with
  | nil => exact h
  | cons a t ih =>
      rw [List.foldl_cons]
      exact ih (fun b hb => hl b (List.mem_cons_of_mem a hb))
        (padStep_assigned (hl a (List.mem_cons_self a t)) hs h)

theorem foldPad_pos_source {side : ℕ} {l : List ℕ} (hl : ∀ a ∈ l, side + 1 ≤ a)
    {c : ℕ → ℤ} {q : ℕ} (h : 0 < (l.foldl (padStep side) c) q) :
    (l.foldl (padStep side) c) q = c q := by
  induction l generalizing c with
  | nil => rfl
  | cons a t ih =>
      rw [List.foldl_cons] at h ⊢
      have h2 := ih (fun b hb => hl b (List.mem_cons_of_mem a hb)) h
      rw [h2] at h ⊢
      rcases padStep_cases (c := c) (hl a (List.mem_cons_self a t)) q with hq |
        ⟨rfl, r, hval, hr, hrc⟩
      · exact hq
      · rw [hval] at h
        omega

theorem padScan_not_mem {side : ℕ} {c : ℕ → ℤ} {p : ℕ} (h : p ∉ scanOrder side) :
    padScan side c p = c p :=
  foldPad_not_mem h

theorem padScan_pos_fixed {side : ℕ} {c : ℕ → ℤ} {q : ℕ} (h : 0 < c q) :
    padScan side c q = c q :=
  foldPad_pos_fixed h

theorem padScan_pos_source {side : ℕ} {c : ℕ → ℤ} {q : ℕ}
    (h : 0 < padScan side c q) : padScan side c q = c q :=
  foldPad_pos_source (fun _a ha => (scanOrder_bounds ha).2.1) h

theorem padScan_assigns {side : ℕ} {c : ℕ → ℤ} {p : ℕ} (hp : p ∈ scanOrder side)
    (hc : c p ≤ 0)
    (hnbr : 0 < c (p - 1) ∨ 0 < c (p + 1) ∨ 0 < c (p + side) ∨ 0 < c (p - side)) :
    padScan side c p < 0 ∧ 0 < padScan side c ((padScan side c p).natAbs) := by
  obtain ⟨hs, hpb, hpu⟩ := scanOrder_bounds hp
  obtain ⟨l₁, l₂, hsplit⟩ := List.append_of_mem hp
  have hsub1 : ∀ a ∈ l₁, side + 1 ≤ a := fun a ha =>
    (scanOrder_bounds (hsplit ▸ List.mem_append_left _ ha)).2.1
  have hsub2 : ∀ a ∈ l₂, side + 1 ≤ a := fun a ha =>
    (scanOrder_bounds
      (hsplit ▸ List.mem_append_right _ (List.mem_cons_of_mem _ ha))).2.1
  unfold padScan
  rw [hsplit, List.foldl_append, List.foldl_cons]
  set c₁ := l₁.foldl (padStep side) c with hc₁
  have h1p : c₁ p ≤ 0 := foldPad_nonpos hsub1 hs hc
  have hnbr₁ : 0 < c₁ (p - 1) ∨ 0 < c₁ (p + 1) ∨ 0 < c₁ (p + side) ∨
      0 < c₁ (p - side) := by
    rcases hnbr with h | h | h | h
    · exact Or.inl (by rw [hc₁, foldPad_pos_fixed h]; exact h)
    · exact Or.inr (Or.inl (by rw [hc₁, foldPad_pos_fixed h]; exact h))
    · exact Or.inr (Or.inr (Or.inl (by rw [hc₁, foldPad_pos_fixed h]; exact h)))
    · exact Or.inr (Or.inr (Or.inr (by rw [hc₁, foldPad_pos_fixed h]; exact h)))
  have hassigned : padStep side c₁ p p < 0 ∧
      0 < padStep side c₁ p ((padStep side c₁ p p).natAbs) := by
    unfold padStep
    split_ifs with h1 h2 h3 h4 h5
    · omega
    · rw [Function.update_same]
      have habs : (-((p : ℤ) - 1)).natAbs = p - 1 := by omega
      rw [habs, Function.update_noteq (by omega) _ c₁]
      exact ⟨by omega, h2⟩
    · rw [Function.update_same]
      have habs : (-((p : ℤ) + 1)).natAbs = p + 1 := by omega
      rw [habs, Function.update_noteq (by omega) _ c₁]
      exact ⟨by omega, h3⟩
    · rw [Function.update_same]
      have habs : (-((p : ℤ) + (side : ℤ))).natAbs = p + side := by omega
      rw [habs, Function.update_noteq (by omega) _ c₁]
      exact ⟨by omega, h4⟩
    · rw [Function.update_same]
      have habs : (-((p : ℤ) - (side : ℤ))).natAbs = p - side := by omega
      rw [habs, Function.update_noteq (by omega) _ c₁]
      exact ⟨by omega, h5⟩
    · exfalso
      rcases hnbr₁ with h | h | h | h
      exacts [h2 h, h3 h, h4 h, h5 h]
  exact foldPad_assigned hsub2 hs hassigned

/-! ### Theorems: the edge-padding pass — the resolution loop -/

theorem resolveStep_ne {c : ℕ → ℤ} {i q : ℕ} (h : q ≠ i) :
    resolveStep c i q = c q := by
  unfold resolveStep
  split_ifs <;> simp [Function.update_noteq h]

theorem resolveStep_nonneg_fixed {c : ℕ → ℤ} {i q : ℕ} (h : 0 ≤ c q) :
    resolveStep c i q = c q := by
  rcases eq_or_ne q i with heq | hne
  · subst heq
    unfold resolveStep
    rw [if_neg (by omega)]
  · exact resolveStep_ne hne

theorem resolveStep_source (c : ℕ → ℤ) (a j : ℕ) :
    resolveStep c a j = c j ∨ resolveStep c a j = c ((c a).natAbs) := by
  rcases eq_or_ne j a with heq | hne
  · subst heq
    unfold resolveStep
    split_ifs with h
    · right; rw [Function.update_same]
    · left; rfl
  · left; exact resolveStep_ne hne

theorem foldRes_nonneg_fixed {l : List ℕ} {c : ℕ → ℤ} {q : ℕ} (h : 0 ≤ c q) :
    (l.foldl resolveStep c) q = c q := by
  induction l generalizing c with
  | nil => rfl
  | cons a t ih =>
      rw [List.foldl_cons, ih (by rw [resolveStep_nonneg_fixed h]; exact h),
        resolveStep_nonneg_fixed h]

theorem foldRes_pos_source {l : List ℕ} {c : ℕ → ℤ} {q : ℕ}
    (h : 0 < (l.foldl resolveStep c) q) :
    ∃ j, (l.foldl resolveStep c) q = c j ∧ 0 < c j := by
  induction l generalizing c with
  | nil => exact ⟨q, rfl, h⟩
  | cons a t ih =>
      rw [List.foldl_cons] at h ⊢
      obtain ⟨j, hj, hjpos⟩ := ih h
      rcases resolveStep_source c a j with h2 | h2
      · exact ⟨j, by rw [hj, h2], by rwa [h2] at hjpos⟩
      · exact ⟨(c a).natAbs, by rw [hj, h2], by rwa [h2] at hjpos⟩

theorem foldRes_backref {l : List ℕ} (hnd : l.Nodup) {c : ℕ → ℤ} {p : ℕ}
    (hmem : p ∈ l) (hneg : c p < 0) (hpos : 0 < c ((c p).natAbs)) :
    (l.foldl resolveStep c) p = c ((c p).natAbs) := by
  induction l generalizing c with
  | nil => cases hmem
  | cons a t ih =>
      rw [List.foldl_cons]
      rcases eq_or_ne a p with heq | hne
      · subst heq
        have hstep : resolveStep c a a = c ((c a).natAbs) := by
          unfold resolveStep
          rw [if_pos hneg, Function.update_same]
        rw [foldRes_nonneg_fixed (by rw [hstep]; exact le_of_lt hpos), hstep]
      · have hpt : p ∈ t := by
          rcases List.mem_cons.mp hmem with heq | hm
          · exact absurd heq.symm hne
          · exact hm
        have hc1p : resolveStep c a p = c p := resolveStep_ne (Ne.symm hne)
        have hc1j : resolveStep c a ((c p).natAbs) = c ((c p).natAbs) :=
          resolveStep_nonneg_fixed (le_of_lt hpos)
        have hres := ih (List.nodup_cons.mp hnd).2 hpt (c := resolveStep c a)
          (by rw [hc1p]; exact hneg) (by rw [hc1p, hc1j]; exact hpos)
        rw [hres, hc1p, hc1j]

theorem resolveStep_minusone {c : ℕ → ℤ} {a q : ℕ} (h1 : c 1 = -1)
    (hq : c q = -1) : resolveStep c a q = -1 := by
  rcases eq_or_ne q a with heq | hne
  · subst heq
    unfold resolveStep
    rw [if_pos (by omega), Function.update_same, hq]
    simpa using h1
  · rw [resolveStep_ne hne]; exact hq

theorem foldRes_minusone {l : List ℕ} {c : ℕ → ℤ} {p : ℕ} (h1 : c 1 = -1)
    (hp : c p = -1) : (l.foldl resolveStep c) p = -1 := by
  induction l generalizing c with
  | nil => exact hp
  | cons a t ih =>
      rw [List.foldl_cons]
      exact ih (resolveStep_minusone h1 h1) (resolveStep_minusone h1 hp)

theorem padResolve_nonneg_fixed {side : ℕ} {c : ℕ → ℤ} {q : ℕ} (h : 0 ≤ c q) :
    padResolve side c q = c q :=
  foldRes_nonneg_fixed h

theorem padResolve_backref {side : ℕ} {c : ℕ → ℤ} {p : ℕ} (hlt : p < side * side)
    (hneg : c p < 0) (hpos : 0 < c ((c p).natAbs)) :
    padResolve side c p = c ((c p).natAbs) :=
  foldRes_backref (List.nodup_range _) (List.mem_range.mpr hlt) hneg hpos

theorem padResolve_minusone {side : ℕ} {c : ℕ → ℤ} {p : ℕ} (h1 : c 1 = -1)
    (hp : c p = -1) : padResolve side c p = -1 :=
  foldRes_minusone h1 hp

/-! ### Theorems: the edge-padding pass — rounds -/

theorem padRound_pos_fixed {side : ℕ} {c : ℕ → ℤ} {q : ℕ} (h : 0 < c q) :
    padRound side c q = c q := by
  have h1 : padScan side c q = c q := padScan_pos_fixed h
  unfold padRound
  rw [padResolve_nonneg_fixed (by rw [h1]; exact le_of_lt h), h1]

theorem padRound_outside_fixed {side : ℕ} {c : ℕ → ℤ} {q : ℕ}
    (hq : q ∉ scanOrder side) (h : 0 ≤ c q) : padRound side c q = c q := by
  have h1 : padScan side c q = c q := padScan_not_mem hq
  unfold padRound
  rw [padResolve_nonneg_fixed (by rw [h1]; exact h), h1]

theorem padRound_pos_source {side : ℕ} {c : ℕ → ℤ} {q : ℕ}
    (h : 0 < padRound side c q) : ∃ j, padRound side c q = c j ∧ 0 < c j := by
  unfold padRound padResolve at h ⊢
  obtain ⟨j, hj, hjpos⟩ := foldRes_pos_source h
  have h2 := padScan_pos_source hjpos
  exact ⟨j, by rw [hj, h2], by rwa [h2] at hjpos⟩

theorem edgePadding_succ (side n : ℕ) (c : ℕ → ℤ) :
    edgePadding side (n + 1) c = padRound side (edgePadding side n c) := by
  unfold edgePadding
  exact Function.iterate_succ_apply' _ _ _

theorem edgePadding_pos_fixed {side : ℕ} {c : ℕ → ℤ} {q : ℕ} (n : ℕ)
    (h : 0 < c q) : edgePadding side n c q = c q := by
  induction n with
  | zero => rfl
  | succ n ih =>
      rw [edgePadding_succ, padRound_pos_fixed (by rw [ih]; exact h), ih]

theorem edgePadding_sampled_fixed (side n : ℕ) (sampled : ℕ → Bool) (p : ℕ)
    (h : sampled p = true) :
    edgePadding side n (mkColorIDs sampled) p = (p : ℤ) := by
  have hp0 : mkColorIDs sampled p = (p : ℤ) := by simp [mkColorIDs, h]
  induction n with
  | zero => exact hp0
  | succ n ih =>
      rw [edgePadding_succ]
      rcases Nat.eq_zero_or_pos p with hz | hpos
      · subst hz
        have hnot : (0 : ℕ) ∉ scanOrder side := fun hm =>
          absurd (scanOrder_bounds hm).2.1 (by omega)
        rw [padRound_outside_fixed hnot (by rw [ih]; norm_num), ih]
      · rw [padRound_pos_fixed (by rw [ih]; exact_mod_cast hpos), ih]

theorem edgePadding_goodPos (side n : ℕ) (sampled : ℕ → Bool) :
    ∀ q, 0 < edgePadding side n (mkColorIDs sampled) q →
      sampled ((edgePadding side n (mkColorIDs sampled) q).toNat) = true := by
  induction n with
  | zero =>
      intro q hq
      by_cases h : sampled q = true
      · have : edgePadding side 0 (mkColorIDs sampled) q = (q : ℤ) := by
          simp [edgePadding, mkColorIDs, h]
        rw [this]
        simpa using h
      · have : edgePadding side 0 (mkColorIDs sampled) q = -1 := by
          simp [edgePadding, mkColorIDs, h]
        rw [this] at hq
        omega
  | succ n ih =>
      intro q hq
      rw [edgePadding_succ] at hq ⊢
      obtain ⟨j, hj, hjpos⟩ := padRound_pos_source hq
      rw [hj]
      exact ih j hjpos

theorem edgePadding_border_empty (side padding : ℕ) (sampled : ℕ → Bool)
    (hside : 3 ≤ side) (h1 : sampled 1 = false) :
    ∀ p, isBorder side p → sampled p = false →
      edgePadding side padding (mkColorIDs sampled) p = -1 := by
  have hb1 : isBorder side 1 := by
    refine ⟨?_, Or.inr (Or.inr (Or.inl (Nat.div_eq_of_lt (by omega))))⟩
    have : 3 * 3 ≤ side * side := Nat.mul_le_mul hside hside
    omega
  induction padding with
  | zero =>
      intro p _ hp
      simp [edgePadding, mkColorIDs, hp]
  | succ n ih =>
      intro p hb hp
      rw [edgePadding_succ]
      have hscan1 : padScan side (edgePadding side n (mkColorIDs sampled)) 1 = -1 := by
        rw [padScan_not_mem (border_not_mem_scanOrder hb1), ih 1 hb1 h1]
      have hscanp : padScan side (edgePadding side n (mkColorIDs sampled)) p = -1 := by
        rw [padScan_not_mem (border_not_mem_scanOrder hb), ih p hb hp]
      unfold padRound
      exact padResolve_minusone hscan1 hscanp

theorem reach_valid {side : ℕ} {sampled : ℕ → Bool} {n p : ℕ}
    (h : InteriorReach side (mkColorIDs sampled) n p) :
    0 < edgePadding side n (mkColorIDs sampled) p := by
  induction h with
  | base m r hr =>
      rw [edgePadding_pos_fixed m hr]
      exact hr
  | step m r q hq hmem hnbr ih =>
      rw [edgePadding_succ]
      rcases le_or_lt (edgePadding side m (mkColorIDs sampled) r) 0 with hle | hpos
      · have hnbr' : 0 < edgePadding side m (mkColorIDs sampled) (r - 1) ∨
            0 < edgePadding side m (mkColorIDs sampled) (r + 1) ∨
            0 < edgePadding side m (mkColorIDs sampled) (r + side) ∨
            0 < edgePadding side m (mkColorIDs sampled) (r - side) := by
          rcases hnbr with hh | hh | hh | hh
          · exact Or.inl (hh ▸ ih)
          · exact Or.inr (Or.inl (hh ▸ ih))
          · exact Or.inr (Or.inr (Or.inl (hh ▸ ih)))
          · exact Or.inr (Or.inr (Or.inr (hh ▸ ih)))
        have hass := padScan_assigns hmem hle hnbr'
        have hlt : r < side * side := by
          have := (scanOrder_bounds hmem).2.2
          omega
        unfold padRound
        rw [padResolve_backref hlt hass.1 hass.2]
        exact hass.2
      · rw [padRound_pos_fixed hpos]
        exact hpos

/-- Counterexample for C7 as stated: on a 3×3 atlas with `padding = 1`, the
border texel at offset 3 is a 4-neighbour of the sampled interior texel at
offset 4 (graph distance 1 ≤ padding), yet it stays empty after the whole
edge-padding pass — the dilation scan never assigns border texels. -/
theorem claimC7_cex :
    0 < mkColorIDs cexSampledFour 4 ∧ 4 = 3 + 1 ∧
    edgePadding 3 1 (mkColorIDs cexSampledFour) 3 = -1 := by
  refine ⟨by decide, rfl, by decide⟩

/-- Claim C7 (amended): after `padding` rounds of the edge-padding pass, every
texel connected to an initially valid texel by a chain of at most `padding`
4-neighbour steps through interior texels is itself valid, and its resolved
colour id points at a texel that actually holds a sample; within each round
neighbours are consulted left, right, next row, previous row (the `padStep`
embedding), back-references are stored negated and a subsequent pass resolves
them (the `padResolve` embedding).  Border texels are excluded: the scan never
assigns them. -/
theorem claimC7_padding_reach (side padding : ℕ) (sampled : ℕ → Bool) (p : ℕ)
    (h : InteriorReach side (mkColorIDs sampled) padding p) :
    0 < edgePadding side padding (mkColorIDs sampled) p ∧
    sampled ((edgePadding side padding (mkColorIDs sampled) p).toNat) = true :=
  ⟨reach_valid h, edgePadding_goodPos side padding sampled p (reach_valid h)⟩

/-- Witness for C7 on a 3×3 atlas: the interior texel 4 is one step from the
sampled texel 1 and becomes valid after one round. -/
theorem claimC7_padding_reach_witness :
    0 < edgePadding 3 1 (mkColorIDs cexSampledOne) 4 ∧
    cexSampledOne ((edgePadding 3 1 (mkColorIDs cexSampledOne) 4).toNat) = true :=
  claimC7_padding_reach 3 1 cexSampledOne 4
    (InteriorReach.step 0 4 1 (InteriorReach.base 0 1 (by decide)) (by decide)
      (Or.inr (Or.inr (Or.inr (by decide)))))

/-- Counterexample for C10 as stated: on a 3×3 atlas with `padding = 1` and a
sample only at buffer offset 1, the unsampled border texel at offset 0 does
not remain empty: the resolution pass reinterprets its `-1` sentinel as a
back-reference to texel 1 and marks it valid with colour id 1. -/
theorem claimC10_cex :
    isBorder 3 0 ∧ cexSampledOne 0 = false ∧
    edgePadding 3 1 (mkColorIDs cexSampledOne) 0 = 1 := by
  refine ⟨⟨by omega, Or.inl (by decide)⟩, by decide, by decide⟩

/-- Claim C10 (amended): the edge-padding pass never overwrites a sampled
texel (its colour id stays its own offset), and an unsampled texel on the
outermost border stays empty provided the texel at buffer offset 1 holds no
sample; when offset 1 is sampled, the resolution pass reads the `-1` sentinel
as a back-reference to texel 1, so unsampled texels — border included —
acquire texel 1's colour id. -/
theorem claimC10_padding_frame (side padding : ℕ) (sampled : ℕ → Bool)
    (hside : 3 ≤ side) :
    (∀ p, sampled p = true →
        edgePadding side padding (mkColorIDs sampled) p = (p : ℤ)) ∧
    (sampled 1 = false → ∀ p, isBorder side p → sampled p = false →
        edgePadding side padding (mkColorIDs sampled) p = -1) := by
  constructor
  · intro p hp
    exact edgePadding_sampled_fixed side padding sampled p hp
  · intro h1 p hb hp
    exact edgePadding_border_empty side padding sampled hside h1 p hb hp

/-- Witness for C10 on a 3×3 atlas with a single interior sample at offset 4:
the sampled texel keeps its own id and the unsampled border texel 0 stays
empty. -/
theorem claimC10_padding_frame_witness :
    edgePadding 3 1 (mkColorIDs cexSampledFour) 4 = (4 : ℤ) ∧
    edgePadding 3 1 (mkColorIDs cexSampledFour) 0 = -1 := by
  have h := claimC10_padding_frame 3 1 cexSampledFour (by omega)
  exact ⟨h.1 4 (by decide), h.2 (by decide) 0 ⟨by omega, Or.inl (by decide)⟩ (by decide)⟩

/-- Counterexample for C2 as stated: on a 3×3 atlas with `padding = 1` and one
red sample at offset 1, the texel at offset 4 accumulated zero samples and yet
is written the red average propagated by edge padding, not the default
colour. -/
theorem claimC2_cex :
    cexSamples 4 = [] ∧
    textureBuffer 3 1 false cexSamples 4 = ⟨1, 0, 0⟩ ∧
    (⟨1, 0, 0⟩ : Color) ≠ defaultColor := by
  refine ⟨rfl, ?_, by norm_num [defaultColor, Color.zero, Color.mk.injEq]⟩
  have hcid : texColorIDs 3 1 false cexSamples 4 = 1 := by decide
  show (if 0 ≤ texColorIDs 3 1 false cexSamples 4 then
      (accumList (cexSamples ((texColorIDs 3 1 false cexSamples 4).toNat))).average
    else defaultColor) = ⟨1, 0, 0⟩
  rw [hcid, if_pos (by norm_num)]
  have : cexSamples ((1 : ℤ).toNat) = [⟨1, 0, 0⟩] := rfl
  rw [this, accumList_average _ (by simp)]
  norm_num [Color.divNat]

/-- Claim C2 (amended): a texel that accumulated at least one sample is
written exactly the sum of its samples divided by their count (edge padding
never reassigns sampled texels); a texel with zero samples whose colour id is
still the `-1` sentinel is written the default colour — but with edge padding
enabled a zero-sample texel may instead acquire a neighbouring sampled texel's
average. -/
theorem claimC2_texel_average (side padding : ℕ) (fillHoles : Bool)
    (samples : ℕ → List Color) (p : ℕ) :
    (samples p ≠ [] →
        textureBuffer side padding fillHoles samples p
          = Color.divNat (samples p).sum (samples p).length) ∧
    (samples p = [] → texColorIDs side padding fillHoles samples p = -1 →
        textureBuffer side padding fillHoles samples p = defaultColor) := by
  constructor
  · intro hne
    have hs : sampledOf samples p = true := by
      unfold sampledOf
      cases hsp : samples p with
      | nil => exact absurd hsp hne
      | cons a t => rfl
    have hcid : texColorIDs side padding fillHoles samples p = (p : ℤ) := by
      unfold texColorIDs
      split_ifs with hc
      · exact edgePadding_sampled_fixed side padding (sampledOf samples) p hs
      · simp [mkColorIDs, hs]
    show (if 0 ≤ texColorIDs side padding fillHoles samples p then
        (accumList (samples
          ((texColorIDs side padding fillHoles samples p).toNat))).average
      else defaultColor) = Color.divNat (samples p).sum (samples p).length
    rw [hcid, if_pos (by positivity), Int.toNat_natCast]
    exact accumList_average _ hne
  · intro _ hcid
    show (if 0 ≤ texColorIDs side padding fillHoles samples p then
        (accumList (samples
          ((texColorIDs side padding fillHoles samples p).toNat))).average
      else defaultColor) = defaultColor
    rw [hcid]
    norm_num

/-- Witness for C2 on a 3×3 atlas: the sampled texel 1 is written its own
average, and with `padding = 0` the unsampled texel 0 is written the default
colour. -/
theorem claimC2_texel_average_witness :
    textureBuffer 3 1 false cexSamples 1
        = Color.divNat (cexSamples 1).sum (cexSamples 1).length ∧
    textureBuffer 3 0 false cexSamples 0 = defaultColor :=
  ⟨(claimC2_texel_average 3 1 false cexSamples 1).1 (by decide),
   (claimC2_texel_average 3 0 false cexSamples 0).2 (by decide) (by decide)⟩

/-! ### Theorems: generateUVs — frame facts of the corner step -/

theorem processCorner_cnt (ctx : UVCtx) (chart : UVChart) (st : UState)
    (uc : List (ℕ × ℕ)) (pid : ℕ) :
    (processCorner ctx chart st uc pid).1.cnt = st.cnt := by
  unfold processCorner
  split <;> dsimp only <;> split <;> rfl

theorem processCorner_tris (ctx : UVCtx) (chart : UVChart) (st : UState)
    (uc : List (ℕ × ℕ)) (pid : ℕ) :
    (processCorner ctx chart st uc pid).1.tris = st.tris := by
  unfold processCorner
  split <;> dsimp only <;> split <;> rfl

theorem processCorner_uvIds (ctx : UVCtx) (chart : UVChart) (st : UState)
    (uc : List (ℕ × ℕ)) (pid : ℕ) :
    (processCorner ctx chart st uc pid).1.uvIds = st.uvIds := by
  unfold processCorner
  split <;> dsimp only <;> split <;> rfl

theorem triCore_cnt (ctx : UVCtx) (chart : UVChart) (s : UState × List (ℕ × ℕ))
    (tid : ℕ) : (triCore ctx chart s tid).1.cnt = s.1.cnt + 1 := by
  simp [triCore, processCorner_cnt]

theorem triCore_tris_len (ctx : UVCtx) (chart : UVChart)
    (s : UState × List (ℕ × ℕ)) (tid : ℕ) :
    (triCore ctx chart s tid).1.tris.length = s.1.tris.length + 1 := by
  simp [triCore, processCorner_tris]

/-! ### Theorems: generateUVs — the triangle, chart and atlas folds -/

theorem processTriangle_def (ctx : UVCtx) (chart : UVChart)
    (s : UState × List (ℕ × ℕ) × List ℕ) (tid : ℕ) :
    processTriangle ctx chart s tid =
      ((triCore ctx chart (s.1, s.2.1) tid).1,
       (triCore ctx chart (s.1, s.2.1) tid).2, s.2.2 ++ [s.1.cnt]) := rfl

theorem range'_glue (a m n : ℕ) :
    List.range' a m ++ List.range' (a + m) n = List.range' a (m + n) := by
  have h := List.range'_append a m n 1
  simp only [one_mul, Nat.add_comm n m] at h
  exact h

theorem foldTri_states (ctx : UVCtx) (chart : UVChart) (tids : List ℕ) :
    ∀ (st : UState) (uc : List (ℕ × ℕ)) (cur : List ℕ),
    tids.foldl (processTriangle ctx chart) (st, uc, cur) =
      ((tids.foldl (triCore ctx chart) (st, uc)).1,
       (tids.foldl (triCore ctx chart) (st, uc)).2,
       cur ++ List.range' st.cnt tids.length) := by
  induction tids with
  | nil => intro st uc cur; simp
  | cons tid t ih =>
      intro st uc cur
      rw [List.foldl_cons, List.foldl_cons, processTriangle_def]
      dsimp only
      rw [ih]
      have hpair : ((triCore ctx chart (st, uc) tid).1,
          (triCore ctx chart (st, uc) tid).2) = triCore ctx chart (st, uc) tid :=
        rfl
      rw [hpair, triCore_cnt]
      have hglue : cur ++ [st.cnt] ++ List.range' (st.cnt + 1) t.length
          = cur ++ List.range' st.cnt (tid :: t).length := by
        rw [List.append_assoc, List.singleton_append, List.length_cons,
          ← List.range'_succ]
      rw [hglue]

theorem chartStep_eq (ctx : UVCtx) (s : UState × List ℕ) (chart : UVChart) :
    chartStep ctx s chart =
      (chartU ctx s.1 chart,
       s.2 ++ List.range' s.1.cnt chart.triangleIDs.length) := by
  unfold chartStep chartU
  rw [foldTri_states]

theorem foldTriCore_cnt (ctx : UVCtx) (chart : UVChart) (tids : List ℕ) :
    ∀ s : UState × List (ℕ × ℕ),
    (tids.foldl (triCore ctx chart) s).1.cnt = s.1.cnt + tids.length := by
  induction tids with
  | nil => intro s; rfl
  | cons tid t ih =>
      intro s
      rw [List.foldl_cons, ih, triCore_cnt, List.length_cons]
      omega

theorem foldTriCore_tris_len (ctx : UVCtx) (chart : UVChart) (tids : List ℕ) :
    ∀ s : UState × List (ℕ × ℕ),
    (tids.foldl (triCore ctx chart) s).1.tris.length
      = s.1.tris.length + tids.length := by
  induction tids with
  | nil => intro s; rfl
  | cons tid t ih =>
      intro s
      rw [List.foldl_cons, ih, triCore_tris_len, List.length_cons]
      omega

theorem chartU_cnt (ctx : UVCtx) (st : UState) (chart : UVChart) :
    (chartU ctx st chart).cnt = st.cnt + chart.triangleIDs.length :=
  foldTriCore_cnt ctx chart chart.triangleIDs (st, [])

theorem chartU_tris_len (ctx : UVCtx) (st : UState) (chart : UVChart) :
    (chartU ctx st chart).tris.length
      = st.tris.length + chart.triangleIDs.length :=
  foldTriCore_tris_len ctx chart chart.triangleIDs (st, [])

theorem foldChart_eq (ctx : UVCtx) (charts : List UVChart) :
    ∀ (st : UState) (cur : List ℕ),
    charts.foldl (chartStep ctx) (st, cur) =
      (charts.foldl (chartU ctx) st,
       cur ++ List.range' st.cnt
         ((charts.map (fun ch => ch.triangleIDs.length)).sum)) := by
  induction charts with
  | nil => intro st cur; simp
  | cons ch t ih =>
      intro st cur
      rw [List.foldl_cons, List.foldl_cons, chartStep_eq, ih, chartU_cnt]
      rw [List.map_cons, List.sum_cons, List.append_assoc, range'_glue]

theorem foldChartU_cnt (ctx : UVCtx) (charts : List UVChart) :
    ∀ st : UState,
    (charts.foldl (chartU ctx) st).cnt
      = st.cnt + (charts.map (fun ch => ch.triangleIDs.length)).sum := by
  induction charts with
  | nil => intro st; simp
  | cons ch t ih =>
      intro st
      rw [List.foldl_cons, ih, chartU_cnt, List.map_cons, List.sum_cons]
      omega

theorem foldChartU_tris_len (ctx : UVCtx) (charts : List UVChart) :
    ∀ st : UState,
    (charts.foldl (chartU ctx) st).tris.length
      = st.tris.length + (charts.map (fun ch => ch.triangleIDs.length)).sum := by
  induction charts with
  | nil => intro st; simp
  | cons ch t ih =>
      intro st
      rw [List.foldl_cons, ih, chartU_tris_len, List.map_cons, List.sum_cons]
      omega

theorem atlasStep_eq (ctx : UVCtx) (s : UState × List (List ℕ))
    (charts : List UVChart) :
    atlasStep ctx s charts =
      (charts.foldl (chartU ctx) s.1,
       s.2 ++ [List.range' s.1.cnt
         ((charts.map (fun ch => ch.triangleIDs.length)).sum)]) := by
  unfold atlasStep
  rw [foldChart_eq]
  simp

theorem foldAtlas_fst (ctx : UVCtx) (atlases : List (List UVChart)) :
    ∀ (st : UState) (outs : List (List ℕ)),
    (atlases.foldl (atlasStep ctx) (st, outs)).1 =
      atlases.foldl (fun s charts => charts.foldl (chartU ctx) s) st := by
  induction atlases with
  | nil => intro st outs; rfl
  | cons charts t ih =>
      intro st outs
      rw [List.foldl_cons, List.foldl_cons, atlasStep_eq, ih]

theorem foldAtlas_flatten (ctx : UVCtx) (atlases : List (List UVChart)) :
    ∀ (st : UState) (outs : List (List ℕ)),
    outs.flatten = List.range st.cnt →
    (atlases.foldl (atlasStep ctx) (st, outs)).2.flatten =
      List.range ((atlases.foldl (atlasStep ctx) (st, outs)).1.cnt) := by
  induction atlases with
  | nil => intro st outs h; exact h
  | cons charts t ih =>
      intro st outs h
      rw [List.foldl_cons, atlasStep_eq]
      apply ih
      rw [List.flatten_append, h, foldChartU_cnt]
      have : List.flatten [List.range' st.cnt
          ((charts.map (fun ch => ch.triangleIDs.length)).sum)]
          = List.range' st.cnt
            ((charts.map (fun ch => ch.triangleIDs.length)).sum) := by simp
      rw [this, List.range_eq_range', List.range_eq_range']
      have hglue := range'_glue 0 st.cnt
        ((charts.map (fun ch => ch.triangleIDs.length)).sum)
      simpa using hglue

theorem foldAtlasU_cnt (ctx : UVCtx) (atlases : List (List UVChart)) :
    ∀ st : UState,
    (atlases.foldl (fun s charts => charts.foldl (chartU ctx) s) st).cnt
      = st.cnt + (atlases.map
          (fun charts => (charts.map (fun ch => ch.triangleIDs.length)).sum)).sum := by
  induction atlases with
  | nil => intro st; simp
  | cons charts t ih =>
      intro st
      rw [List.foldl_cons, ih, foldChartU_cnt, List.map_cons, List.sum_cons]
      omega

theorem foldAtlasU_tris_len (ctx : UVCtx) (atlases : List (List UVChart)) :
    ∀ st : UState,
    (atlases.foldl (fun s charts => charts.foldl (chartU ctx) s) st).tris.length
      = st.tris.length + (atlases.map
          (fun charts => (charts.map (fun ch => ch.triangleIDs.length)).sum)).sum := by
  induction atlases with
  | nil => intro st; simp
  | cons charts t ih =>
      intro st
      rw [List.foldl_cons, ih, foldChartU_tris_len, List.map_cons, List.sum_cons]
      omega

/-- Claim C1: after Basic UV generation the atlas triangle lists, in order,
are exactly the output triangle indices `0, 1, …, N-1` — every output
triangle index is contained in exactly one atlas list — and the number of
output triangles equals the total number of chart triangle ids, so each input
chart triangle produces exactly one output triangle. -/
theorem claimC1_atlas_partition (ctx : UVCtx) (atlases : List (List UVChart)) :
    (generateUVsCore ctx atlases).2.flatten
        = List.range ((generateUVsCore ctx atlases).1.tris.length) ∧
    (generateUVsCore ctx atlases).1.tris.length
        = (atlases.map
            (fun charts => (charts.map (fun ch => ch.triangleIDs.length)).sum)).sum ∧
    ∀ t, t < (generateUVsCore ctx atlases).1.tris.length →
      ((generateUVsCore ctx atlases).2.map (List.count t)).sum = 1 := by
  have hlen : (generateUVsCore ctx atlases).1.tris.length
      = (atlases.map
          (fun charts => (charts.map (fun ch => ch.triangleIDs.length)).sum)).sum := by
    unfold generateUVsCore
    rw [foldAtlas_fst, foldAtlasU_tris_len]
    simp [emptyU]
  have hcnt : (generateUVsCore ctx atlases).1.cnt
      = (generateUVsCore ctx atlases).1.tris.length := by
    unfold generateUVsCore
    rw [foldAtlas_fst, foldAtlasU_tris_len, foldAtlasU_cnt]
    simp [emptyU]
  have hflat : (generateUVsCore ctx atlases).2.flatten
      = List.range ((generateUVsCore ctx atlases).1.tris.length) := by
    rw [← hcnt]
    exact foldAtlas_flatten ctx atlases emptyU [] (by simp [emptyU])
  refine ⟨hflat, hlen, ?_⟩
  intro t ht
  have hc : List.count t (generateUVsCore ctx atlases).2.flatten = 1 := by
    rw [hflat]
    have h1 : List.count t
        (List.range ((generateUVsCore ctx atlases).1.tris.length)) ≤ 1 :=
      List.nodup_iff_count_le_one.mp (List.nodup_range _) t
    have h2 : 0 < List.count t
        (List.range ((generateUVsCore ctx atlases).1.tris.length)) :=
      List.count_pos_iff.mpr (List.mem_range.mpr ht)
    omega
  rw [← List.count_flatten]
  exact hc

/-! ### Theorems: generateUVs — the two deduplication caches -/

theorem processCorner_eq_hit_hit (ctx : UVCtx) (chart : UVChart) (st : UState)
    (uc : List (ℕ × ℕ)) (pid : ℕ) {i j : ℕ} (hv : st.vc.lookup pid = some i)
    (hu : uc.lookup i = some j) :
    processCorner ctx chart st uc pid = (st, uc, i, j) := by
  simp only [processCorner, hv, hu]

theorem processCorner_eq_hit_miss (ctx : UVCtx) (chart : UVChart) (st : UState)
    (uc : List (ℕ × ℕ)) (pid : ℕ) {i : ℕ} (hv : st.vc.lookup pid = some i)
    (hu : uc.lookup i = none) :
    processCorner ctx chart st uc pid =
      ({ st with
          uvs := st.uvs ++ [cornerUV ctx chart (ctx.mesh.pts.getD pid ⟨0, 0, 0⟩)] },
       uc ++ [(i, st.uvs.length)], i, st.uvs.length) := by
  simp only [processCorner, hv, hu]

theorem processCorner_eq_miss_hit (ctx : UVCtx) (chart : UVChart) (st : UState)
    (uc : List (ℕ × ℕ)) (pid : ℕ) {j : ℕ} (hv : st.vc.lookup pid = none)
    (hu : uc.lookup st.pts.length = some j) :
    processCorner ctx chart st uc pid =
      ({ st with
          pts := st.pts ++ [ctx.mesh.pts.getD pid ⟨0, 0, 0⟩]
          vis := st.vis ++ [ctx.visIn.getD pid []]
          vc := st.vc ++ [(pid, st.pts.length)] },
       uc, st.pts.length, j) := by
  simp only [processCorner, hv, hu]

theorem processCorner_eq_miss_miss (ctx : UVCtx) (chart : UVChart) (st : UState)
    (uc : List (ℕ × ℕ)) (pid : ℕ) (hv : st.vc.lookup pid = none)
    (hu : uc.lookup st.pts.length = none) :
    processCorner ctx chart st uc pid =
      ({ st with
          pts := st.pts ++ [ctx.mesh.pts.getD pid ⟨0, 0, 0⟩]
          vis := st.vis ++ [ctx.visIn.getD pid []]
          vc := st.vc ++ [(pid, st.pts.length)]
          uvs := st.uvs ++ [cornerUV ctx chart (ctx.mesh.pts.getD pid ⟨0, 0, 0⟩)] },
       uc ++ [(st.pts.length, st.uvs.length)], st.pts.length, st.uvs.length) := by
  simp only [processCorner, hv, hu]

theorem lookup_none_not_mem {l : List (ℕ × ℕ)} {k : ℕ}
    (h : l.lookup k = none) : k ∉ l.map Prod.fst := by
  induction l with
  | nil => simp
  | cons e t ih =>
      obtain ⟨a, b⟩ := e
      rw [List.lookup_cons] at h
      cases hbeq : (k == a) with
      | true => simp [hbeq] at h
      | false =>
          simp only [hbeq] at h
          intro hm
          rcases List.mem_cons.mp hm with heq | hm2
          · exact (beq_eq_false_iff_ne.mp hbeq) heq
          · exact ih h hm2

theorem lookup_some_mem {l : List (ℕ × ℕ)} {k v : ℕ}
    (h : l.lookup k = some v) : (k, v) ∈ l := by
  induction l with
  | nil => simp [List.lookup] at h
  | cons e t ih =>
      obtain ⟨a, b⟩ := e
      rw [List.lookup_cons] at h
      cases hbeq : (k == a) with
      | true =>
          simp only [hbeq] at h
          obtain rfl := Option.some.inj h
          have : k = a := by simpa using hbeq
          subst this
          exact List.mem_cons_self _ _
      | false =>
          simp only [hbeq] at h
          exact List.mem_cons_of_mem _ (ih h)

theorem processCorner_vcinv (ctx : UVCtx) (chart : UVChart) (st : UState)
    (uc : List (ℕ × ℕ)) (pid : ℕ)
    (h1 : (st.vc.map Prod.fst).Nodup)
    (h2 : st.vc.map Prod.snd = List.range st.pts.length) :
    ((processCorner ctx chart st uc pid).1.vc.map Prod.fst).Nodup ∧
    (processCorner ctx chart st uc pid).1.vc.map Prod.snd
      = List.range ((processCorner ctx chart st uc pid).1.pts.length) := by
  rcases hv : st.vc.lookup pid with - | i
  · have hfresh : pid ∉ st.vc.map Prod.fst := lookup_none_not_mem hv
    have hnodup : ((st.vc ++ [(pid, st.pts.length)]).map Prod.fst).Nodup := by
      rw [List.map_append, List.nodup_append]
      refine ⟨h1, List.nodup_singleton _, ?_⟩
      intro x hx hx2
      simp only [List.map_cons, List.map_nil, List.mem_singleton] at hx2
      subst hx2
      exact hfresh hx
    have hsnd : (st.vc ++ [(pid, st.pts.length)]).map Prod.snd
        = List.range (st.pts ++ [ctx.mesh.pts.getD pid ⟨0, 0, 0⟩]).length := by
      rw [List.map_append, h2, List.length_append]
      simp [List.range_succ]
    rcases hu : uc.lookup st.pts.length with - | j
    · rw [processCorner_eq_miss_miss ctx chart st uc pid hv hu]
      exact ⟨hnodup, hsnd⟩
    · rw [processCorner_eq_miss_hit ctx chart st uc pid hv hu]
      exact ⟨hnodup, hsnd⟩
  · rcases hu : uc.lookup i with - | j
    · rw [processCorner_eq_hit_miss ctx chart st uc pid hv hu]
      exact ⟨h1, h2⟩
    · rw [processCorner_eq_hit_hit ctx chart st uc pid hv hu]
      exact ⟨h1, h2⟩

theorem processCorner_uvspec (ctx : UVCtx) (chart : UVChart) (st : UState)
    (uc : List (ℕ × ℕ)) (pid : ℕ) (lo : ℕ) (hlo : lo ≤ st.uvs.length)
    (huc : ∀ e ∈ uc, lo ≤ e.2 ∧ e.2 < st.uvs.length) :
    st.uvs.length ≤ (processCorner ctx chart st uc pid).1.uvs.length ∧
    (∀ e ∈ (processCorner ctx chart st uc pid).2.1,
        lo ≤ e.2 ∧ e.2 < (processCorner ctx chart st uc pid).1.uvs.length) ∧
    lo ≤ (processCorner ctx chart st uc pid).2.2.2 ∧
    (processCorner ctx chart st uc pid).2.2.2
      < (processCorner ctx chart st uc pid).1.uvs.length := by
  rcases hv : st.vc.lookup pid with - | i
  · rcases hu : uc.lookup st.pts.length with - | j
    · rw [processCorner_eq_miss_miss ctx chart st uc pid hv hu]
      dsimp only
      rw [List.length_append]
      refine ⟨by omega, ?_, by omega, by simp⟩
      intro e he
      rcases List.mem_append.mp he with hold | hnew
      · have := huc e hold
        omega
      · simp only [List.mem_singleton] at hnew
        subst hnew
        exact ⟨hlo, by simp⟩
    · rw [processCorner_eq_miss_hit ctx chart st uc pid hv hu]
      dsimp only
      have hj := huc _ (lookup_some_mem hu)
      exact ⟨le_refl _, huc, hj.1, hj.2⟩
  · rcases hu : uc.lookup i with - | j
    · rw [processCorner_eq_hit_miss ctx chart st uc pid hv hu]
      dsimp only
      rw [List.length_append]
      refine ⟨by omega, ?_, by omega, by simp⟩
      intro e he
      rcases List.mem_append.mp he with hold | hnew
      · have := huc e hold
        omega
      · simp only [List.mem_singleton] at hnew
        subst hnew
        exact ⟨hlo, by simp⟩
    · rw [processCorner_eq_hit_hit ctx chart st uc pid hv hu]
      dsimp only
      have hj := huc _ (lookup_some_mem hu)
      exact ⟨le_refl _, huc, hj.1, hj.2⟩

theorem triCore_eq (ctx : UVCtx) (chart : UVChart) (st : UState)
    (uc : List (ℕ × ℕ)) (tid : ℕ) :
    triCore ctx chart (st, uc) tid =
      (let c0 := processCorner ctx chart st uc (ctx.mesh.tris.getD tid (0, 0, 0)).1
       let c1 := processCorner ctx chart c0.1 c0.2.1
         (ctx.mesh.tris.getD tid (0, 0, 0)).2.1
       let c2 := processCorner ctx chart c1.1 c1.2.1
         (ctx.mesh.tris.getD tid (0, 0, 0)).2.2
       ({ c2.1 with
           tris := c2.1.tris ++ [(c0.2.2.1, c1.2.2.1, c2.2.2.1)]
           uvIds := c2.1.uvIds ++ [(c0.2.2.2, c1.2.2.2, c2.2.2.2)]
           cnt := c2.1.cnt + 1 }, c2.2.1)) := rfl

theorem uvBounds_mono {lo h h' : ℕ} {t : ℕ × ℕ × ℕ} (hb : uvBounds lo h t)
    (hh : h ≤ h') : uvBounds lo h' t := by
  unfold uvBounds at *
  omega

theorem triCore_vcinv (ctx : UVCtx) (chart : UVChart) (st : UState)
    (uc : List (ℕ × ℕ)) (tid : ℕ)
    (h1 : (st.vc.map Prod.fst).Nodup)
    (h2 : st.vc.map Prod.snd = List.range st.pts.length) :
    (((triCore ctx chart (st, uc) tid).1.vc.map Prod.fst).Nodup) ∧
    (triCore ctx chart (st, uc) tid).1.vc.map Prod.snd
      = List.range ((triCore ctx chart (st, uc) tid).1.pts.length) := by
  rw [triCore_eq]
  dsimp only
  set c0 := processCorner ctx chart st uc (ctx.mesh.tris.getD tid (0, 0, 0)).1
    with hc0
  set c1 := processCorner ctx chart c0.1 c0.2.1
    (ctx.mesh.tris.getD tid (0, 0, 0)).2.1 with hc1
  set c2 := processCorner ctx chart c1.1 c1.2.1
    (ctx.mesh.tris.getD tid (0, 0, 0)).2.2 with hc2
  have hA := processCorner_vcinv ctx chart st uc
    (ctx.mesh.tris.getD tid (0, 0, 0)).1 h1 h2
  rw [← hc0] at hA
  have hB := processCorner_vcinv ctx chart c0.1 c0.2.1
    (ctx.mesh.tris.getD tid (0, 0, 0)).2.1 hA.1 hA.2
  rw [← hc1] at hB
  have hC := processCorner_vcinv ctx chart c1.1 c1.2.1
    (ctx.mesh.tris.getD tid (0, 0, 0)).2.2 hB.1 hB.2
  rw [← hc2] at hC
  exact hC

theorem triCore_uvspec (ctx : UVCtx) (chart : UVChart) (st : UState)
    (uc : List (ℕ × ℕ)) (tid : ℕ) (lo : ℕ) (hlo : lo ≤ st.uvs.length)
    (huc : ∀ e ∈ uc, lo ≤ e.2 ∧ e.2 < st.uvs.length) :
    st.uvs.length ≤ (triCore ctx chart (st, uc) tid).1.uvs.length ∧
    (∀ e ∈ (triCore ctx chart (st, uc) tid).2,
        lo ≤ e.2 ∧ e.2 < (triCore ctx chart (st, uc) tid).1.uvs.length) ∧
    ∃ tr, (triCore ctx chart (st, uc) tid).1.uvIds = st.uvIds ++ [tr] ∧
      uvBounds lo ((triCore ctx chart (st, uc) tid).1.uvs.length) tr := by
  rw [triCore_eq]
  dsimp only
  set c0 := processCorner ctx chart st uc (ctx.mesh.tris.getD tid (0, 0, 0)).1
    with hc0
  set c1 := processCorner ctx chart c0.1 c0.2.1
    (ctx.mesh.tris.getD tid (0, 0, 0)).2.1 with hc1
  set c2 := processCorner ctx chart c1.1 c1.2.1
    (ctx.mesh.tris.getD tid (0, 0, 0)).2.2 with hc2
  have h0 := processCorner_uvspec ctx chart st uc
    (ctx.mesh.tris.getD tid (0, 0, 0)).1 lo hlo huc
  rw [← hc0] at h0
  have h1 := processCorner_uvspec ctx chart c0.1 c0.2.1
    (ctx.mesh.tris.getD tid (0, 0, 0)).2.1 lo (le_trans hlo h0.1) h0.2.1
  rw [← hc1] at h1
  have h2 := processCorner_uvspec ctx chart c1.1 c1.2.1
    (ctx.mesh.tris.getD tid (0, 0, 0)).2.2 lo
    (le_trans (le_trans hlo h0.1) h1.1) h1.2.1
  rw [← hc2] at h2
  have e2 : c2.1.uvIds = c1.1.uvIds := by
    rw [hc2]
    exact processCorner_uvIds ctx chart c1.1 c1.2.1
      (ctx.mesh.tris.getD tid (0, 0, 0)).2.2
  have e1 : c1.1.uvIds = c0.1.uvIds := by
    rw [hc1]
    exact processCorner_uvIds ctx chart c0.1 c0.2.1
      (ctx.mesh.tris.getD tid (0, 0, 0)).2.1
  have e0 : c0.1.uvIds = st.uvIds := by
    rw [hc0]
    exact processCorner_uvIds ctx chart st uc
      (ctx.mesh.tris.getD tid (0, 0, 0)).1
  refine ⟨le_trans h0.1 (le_trans h1.1 h2.1), h2.2.1,
    (c0.2.2.2, c1.2.2.2, c2.2.2.2), ?_, ?_⟩
  · rw [e2, e1, e0]
  · exact ⟨⟨h0.2.2.1, lt_of_lt_of_le h0.2.2.2 (le_trans h1.1 h2.1)⟩,
      ⟨h1.2.2.1, lt_of_lt_of_le h1.2.2.2 h2.1⟩, h2.2.2.1, h2.2.2.2⟩

theorem foldTriCore_vcinv (ctx : UVCtx) (chart : UVChart) (tids : List ℕ) :
    ∀ (st : UState) (uc : List (ℕ × ℕ)),
    (st.vc.map Prod.fst).Nodup →
    st.vc.map Prod.snd = List.range st.pts.length →
    (((tids.foldl (triCore ctx chart) (st, uc)).1.vc.map Prod.fst).Nodup) ∧
    (tids.foldl (triCore ctx chart) (st, uc)).1.vc.map Prod.snd
      = List.range ((tids.foldl (triCore ctx chart) (st, uc)).1.pts.length) := by
  induction tids with
  | nil => intro st uc h1 h2; exact ⟨h1, h2⟩
  | cons tid t ih =>
      intro st uc h1 h2
      rw [List.foldl_cons]
      have hstep := triCore_vcinv ctx chart st uc tid h1 h2
      have := ih (triCore ctx chart (st, uc) tid).1
        (triCore ctx chart (st, uc) tid).2 hstep.1 hstep.2
      simpa using this

theorem foldTriCore_uvspec (ctx : UVCtx) (chart : UVChart) (tids : List ℕ) :
    ∀ (st : UState) (uc : List (ℕ × ℕ)) (lo : ℕ), lo ≤ st.uvs.length →
    (∀ e ∈ uc, lo ≤ e.2 ∧ e.2 < st.uvs.length) →
    st.uvs.length ≤ (tids.foldl (triCore ctx chart) (st, uc)).1.uvs.length ∧
    (∀ e ∈ (tids.foldl (triCore ctx chart) (st, uc)).2,
        lo ≤ e.2 ∧ e.2 < (tids.foldl (triCore ctx chart) (st, uc)).1.uvs.length) ∧
    ∃ pre, (tids.foldl (triCore ctx chart) (st, uc)).1.uvIds = st.uvIds ++ pre ∧
      ∀ tr ∈ pre,
        uvBounds lo ((tids.foldl (triCore ctx chart) (st, uc)).1.uvs.length) tr := by
  induction tids with
  | nil =>
      intro st uc lo hlo huc
      exact ⟨le_refl _, huc, [], by simp, by simp⟩
  | cons tid t ih =>
      intro st uc lo hlo huc
      rw [List.foldl_cons]
      have hstep := triCore_uvspec ctx chart st uc tid lo hlo huc
      obtain ⟨hmono, hucs, tr, hids, hbtr⟩ := hstep
      have hrec := ih (triCore ctx chart (st, uc) tid).1
        (triCore ctx chart (st, uc) tid).2 lo (le_trans hlo hmono) hucs
      rw [Prod.mk.eta] at hrec
      obtain ⟨hmono2, hucs2, pre, hids2, hb2⟩ := hrec
      refine ⟨le_trans hmono hmono2, hucs2, tr :: pre, ?_, ?_⟩
      · rw [hids2, hids, List.append_assoc, List.singleton_append]
      · intro x hx
        rcases List.mem_cons.mp hx with heq | hm
        · subst heq
          exact uvBounds_mono hbtr hmono2
        · exact hb2 x hm

theorem chartU_vcinv (ctx : UVCtx) (st : UState) (ch : UVChart)
    (h1 : (st.vc.map Prod.fst).Nodup)
    (h2 : st.vc.map Prod.snd = List.range st.pts.length) :
    (((chartU ctx st ch).vc.map Prod.fst).Nodup) ∧
    (chartU ctx st ch).vc.map Prod.snd
      = List.range ((chartU ctx st ch).pts.length) :=
  foldTriCore_vcinv ctx ch ch.triangleIDs st [] h1 h2

theorem chartU_uvspec (ctx : UVCtx) (st : UState) (ch : UVChart) :
    st.uvs.length ≤ (chartU ctx st ch).uvs.length ∧
    ∃ pre, (chartU ctx st ch).uvIds = st.uvIds ++ pre ∧
      ∀ tr ∈ pre, uvBounds st.uvs.length ((chartU ctx st ch).uvs.length) tr := by
  have h := foldTriCore_uvspec ctx ch ch.triangleIDs st [] st.uvs.length
    (le_refl _) (by simp)
  exact ⟨h.1, h.2.2⟩

theorem foldChartU_vcinv (ctx : UVCtx) (charts : List UVChart) :
    ∀ st : UState,
    (st.vc.map Prod.fst).Nodup →
    st.vc.map Prod.snd = List.range st.pts.length →
    (((charts.foldl (chartU ctx) st).vc.map Prod.fst).Nodup) ∧
    (charts.foldl (chartU ctx) st).vc.map Prod.snd
      = List.range ((charts.foldl (chartU ctx) st).pts.length) := by
  induction charts with
  | nil => intro st h1 h2; exact ⟨h1, h2⟩
  | cons ch t ih =>
      intro st h1 h2
      rw [List.foldl_cons]
      have hstep := chartU_vcinv ctx st ch h1 h2
      exact ih (chartU ctx st ch) hstep.1 hstep.2

/-! ### Theorems: generateUVs — per-chart UV index blocks -/

theorem stateAfterCharts_succ_lt (ctx : UVCtx) (charts : List UVChart) (n : ℕ)
    (h : n < charts.length) :
    stateAfterCharts ctx charts (n + 1)
      = chartU ctx (stateAfterCharts ctx charts n) charts[n] := by
  unfold stateAfterCharts
  rw [List.take_succ, List.getElem?_eq_getElem h, List.foldl_append]
  rfl

theorem stateAfterCharts_succ_ge (ctx : UVCtx) (charts : List UVChart) (n : ℕ)
    (h : charts.length ≤ n) :
    stateAfterCharts ctx charts (n + 1) = stateAfterCharts ctx charts n := by
  unfold stateAfterCharts
  rw [List.take_of_length_le h, List.take_of_length_le (le_trans h (Nat.le_succ n))]

theorem uvLen_mono (ctx : UVCtx) (charts : List UVChart) (n m : ℕ) (h : n ≤ m) :
    (stateAfterCharts ctx charts n).uvs.length
      ≤ (stateAfterCharts ctx charts m).uvs.length := by
  induction m, h using Nat.le_induction with
  | base => exact le_refl _
  | succ m hm ih =>
      rcases lt_or_ge m charts.length with hlt | hge
      · rw [stateAfterCharts_succ_lt ctx charts m hlt]
        exact le_trans ih (chartU_uvspec ctx _ _).1
      · rw [stateAfterCharts_succ_ge ctx charts m hge]
        exact ih

theorem chartUvIdxs_bounds (ctx : UVCtx) (charts : List UVChart) (n : ℕ) :
    ∀ i ∈ chartUvIdxs ctx charts n,
      (stateAfterCharts ctx charts n).uvs.length ≤ i ∧
      i < (stateAfterCharts ctx charts (n + 1)).uvs.length := by
  intro i hi
  unfold chartUvIdxs at hi
  rcases lt_or_ge n charts.length with h | h
  · rw [stateAfterCharts_succ_lt ctx charts n h] at hi ⊢
    obtain ⟨hmono, pre, hids, hb⟩ := chartU_uvspec ctx
      (stateAfterCharts ctx charts n) charts[n]
    rw [hids, List.drop_left] at hi
    obtain ⟨tr, htr, hcomp⟩ := List.mem_flatMap.mp hi
    have hbtr := hb tr htr
    unfold uvBounds at hbtr
    simp only [List.mem_cons, List.mem_singleton, List.not_mem_nil,
      or_false] at hcomp
    rcases hcomp with rfl | rfl | rfl
    · exact ⟨hbtr.1.1, hbtr.1.2⟩
    · exact ⟨hbtr.2.1.1, hbtr.2.1.2⟩
    · exact ⟨hbtr.2.2.1, hbtr.2.2.2⟩
  · rw [stateAfterCharts_succ_ge ctx charts n h, List.drop_length] at hi
    simp at hi

theorem generateUVsCore_fst_charts (ctx : UVCtx) (atlases : List (List UVChart)) :
    (generateUVsCore ctx atlases).1
      = stateAfterCharts ctx atlases.flatten atlases.flatten.length := by
  unfold generateUVsCore stateAfterCharts
  rw [foldAtlas_fst, List.take_length]
  exact (List.foldl_flatten (chartU ctx) emptyU atlases).symm

/-- Claim C6: the vertex-deduplication cache is global — across the whole run
its keys (original point indices) are pairwise distinct and its values
enumerate the new mesh vertices exactly once each, so an original point is
allocated at most one new vertex no matter how many triangles or charts
reference it — while the UV cache is reset per chart: the UV indices recorded
during distinct charts occupy disjoint, increasing ranges of the UV table, so
a point referenced from two different charts receives two distinct UV table
entries. -/
theorem claimC6_dedup_caches (ctx : UVCtx) (atlases : List (List UVChart)) :
    ((generateUVsCore ctx atlases).1.vc.map Prod.fst).Nodup ∧
    (generateUVsCore ctx atlases).1.vc.map Prod.snd
      = List.range ((generateUVsCore ctx atlases).1.pts.length) ∧
    (generateUVsCore ctx atlases).1
      = stateAfterCharts ctx atlases.flatten atlases.flatten.length ∧
    ∀ n m, n < m → ∀ i ∈ chartUvIdxs ctx atlases.flatten n,
      ∀ j ∈ chartUvIdxs ctx atlases.flatten m, i < j := by
  have hvc : ((generateUVsCore ctx atlases).1.vc.map Prod.fst).Nodup ∧
      (generateUVsCore ctx atlases).1.vc.map Prod.snd
        = List.range ((generateUVsCore ctx atlases).1.pts.length) := by
    unfold generateUVsCore
    rw [foldAtlas_fst]
    rw [← List.foldl_flatten (chartU ctx) emptyU atlases]
    exact foldChartU_vcinv ctx atlases.flatten emptyU (by simp [emptyU])
      (by simp [emptyU])
  refine ⟨hvc.1, hvc.2, generateUVsCore_fst_charts ctx atlases, ?_⟩
  intro n m hnm i hi j hj
  have hbi := chartUvIdxs_bounds ctx atlases.flatten n i hi
  have hbj := chartUvIdxs_bounds ctx atlases.flatten m j hj
  have hmono := uvLen_mono ctx atlases.flatten (n + 1) m hnm
  omega

/-- Witness for C1 on a concrete two-chart run: the output has triangles and
output triangle 0 appears in exactly one atlas list. -/
theorem claimC1_atlas_partition_witness :
    0 < (generateUVsCore cexUVCtx cexAtlases).1.tris.length ∧
    ((generateUVsCore cexUVCtx cexAtlases).2.map (List.count 0)).sum = 1 :=
  ⟨by decide, (claimC1_atlas_partition cexUVCtx cexAtlases).2.2 0 (by decide)⟩

/-- Witness for C6 on a concrete run where two charts share point 0: the
point's UV index in the first chart (0) differs from its UV index in the
second chart (1). -/
theorem claimC6_dedup_caches_witness :
    (0 ∈ chartUvIdxs cexUVCtx cexAtlases.flatten 0) ∧
    (1 ∈ chartUvIdxs cexUVCtx cexAtlases.flatten 1) ∧ (0 : ℕ) < 1 :=
  ⟨by decide, by decide,
   (claimC6_dedup_caches cexUVCtx cexAtlases).2.2.2 0 1 (by omega) 0 (by decide)
     1 (by decide)⟩

end AVTex
